import Mathlib

/-!
Verification of the resolution-calculation module (`refl1d/resolution.py`).

The numeric code is embedded over the real numbers.  NumPy operations that
produce NaN on out-of-domain inputs (`arcsin` outside `[-1, 1]`, `sqrt` of a
negative radicand) are embedded as `Option`-valued functions where `none`
stands for NaN.  Python calls that raise an exception (indexing errors,
subscripting a scalar) are embedded as `Except Unit`-valued functions where
`Except.error ()` stands for the raised exception.  Scalar-or-sequence angle
arguments are embedded by a scalar (`ℝ`) variant and a sequence (`List ℝ`)
variant, mirroring the two code paths selected by `isscalar`.
-/

set_option linter.unusedVariables false

namespace Refl1d

noncomputable section

open Real

/-- Degrees-to-radians conversion, `numpy.radians`. -/
def radians (x : ℝ) : ℝ := x * (π / 180)

/-- Radians-to-degrees conversion, `numpy.degrees`. -/
def degrees (x : ℝ) : ℝ := x * (180 / π)

/-- The constant `_FWHM_scale = sqrt(log(256))`. -/
def FWHM_scale : ℝ := Real.sqrt (Real.log 256)

/-- `FWHM2sigma(s) = s / _FWHM_scale`. -/
def FWHM2sigma (s : ℝ) : ℝ := s / FWHM_scale

/-- `sigma2FWHM(s) = s * _FWHM_scale`. -/
def sigma2FWHM (s : ℝ) : ℝ := s * FWHM_scale

/-- `QL2T(Q, L) = degrees(asin(abs(Q)*L/(4*pi)))`.  When the arcsine argument
lies outside `[-1, 1]`, NumPy's `arcsin` returns NaN, embedded as `none`. -/
def QL2T (Q L : ℝ) : Option ℝ :=
  if 1 < |Q| * L / (4 * π) ∨ |Q| * L / (4 * π) < -1 then none
  else some (degrees (Real.arcsin (|Q| * L / (4 * π))))

/-- `TL2Q(T, L) = 4*pi*sin(radians(T))/L`. -/
def TL2Q (T L : ℝ) : ℝ := 4 * π * Real.sin (radians T) / L

/-- `dTdL2dQ(T, dT, L, dL)`: FWHM angular divergence and wavelength dispersion
to 1-sigma Q resolution; the radicand is a sum of squares, so no NaN arises. -/
def dTdL2dQ (T dT L dL : ℝ) : ℝ :=
  FWHM2sigma ((4 * π / L) *
    Real.sqrt ((Real.sin (radians T) * dL / L) ^ 2 +
               (Real.cos (radians T) * radians dT) ^ 2))

/-- `dQdT2dLoL(Q, dQ, T, dT) = sqrt((sigma2FWHM(dQ)/Q)^2 -
(radians(dT)/tan(radians(T)))^2)`.  A negative radicand gives NaN (`none`). -/
def dQdT2dLoL (Q dQ T dT : ℝ) : Option ℝ :=
  if (sigma2FWHM dQ / Q) ^ 2 - (radians dT / Real.tan (radians T)) ^ 2 < 0 then none
  else some (Real.sqrt ((sigma2FWHM dQ / Q) ^ 2 - (radians dT / Real.tan (radians T)) ^ 2))

/-- `dQdL2dT(Q, dQ, L, dL)` returns the pair `(T, dT)` with `T = QL2T(Q, L)` and
`dT = degrees(sqrt((sigma2FWHM(dQ)/Q)^2 - (dL/L)^2) * tan(radians(T)))`.
If `T` is NaN then so is `dT` (NaN propagates through `tan`); a negative
radicand also makes `dT` NaN.  NaN is embedded as `none` componentwise. -/
def dQdL2dT (Q dQ L dL : ℝ) : Option ℝ × Option ℝ :=
  match QL2T Q L with
  | none => (none, none)
  | some t =>
    (some t,
     if (sigma2FWHM dQ / Q) ^ 2 - (dL / L) ^ 2 < 0 then none
     else some (degrees (Real.sqrt ((sigma2FWHM dQ / Q) ^ 2 - (dL / L) ^ 2) *
                         Real.tan (radians t))))

/-- `bins(low, high, dLoL)`: geometric bin edges `low*step**arange(n+1)` with
`step = 1 + dLoL` and `n = ceil(log(high/low)/log(step))`, returning midpoints
of consecutive edges `(edges[:-1]+edges[1:])/2`. -/
def bins (low high dLoL : ℝ) : List ℝ :=
  let step := 1 + dLoL
  let n : ℤ := ⌈Real.log (high / low) / Real.log step⌉
  let edges := (List.range (n + 1).toNat).map (fun k => low * step ^ k)
  List.zipWith (fun a b => (a + b) / 2) edges edges.tail

/-- `binwidths(L)`: infers `dLoL` from the first two centers (direction-aware)
and returns `2*dLoL/(2+dLoL)*L` elementwise.  Accessing `L[1]` raises
IndexError when `L` has fewer than two entries, embedded as `Except.error`. -/
def binwidths (L : List ℝ) : Except Unit (List ℝ) :=
  match L with
  | L0 :: L1 :: rest =>
    let dLoL := if L1 > L0 then L1 / L0 - 1 else L0 / L1 - 1
    Except.ok ((L0 :: L1 :: rest).map (fun x => 2 * dLoL / (2 + dLoL) * x))
  | _ => Except.error ()

/-- `binedges(L)`: recovers edges `E = L*2/(2+dLoL)` and appends `E[-1]*last`
with `last = 1+dLoL` (ascending) or `1/(1+dLoL)` (descending).  Accessing
`L[1]` raises IndexError when `L` has fewer than two entries. -/
def binedges (L : List ℝ) : Except Unit (List ℝ) :=
  match L with
  | L0 :: L1 :: rest =>
    let dLoL := if L1 > L0 then L1 / L0 - 1 else L0 / L1 - 1
    let last := if L1 > L0 then 1 + dLoL else 1 / (1 + dLoL)
    let E := (L0 :: L1 :: rest).map (fun x => x * 2 / (2 + dLoL))
    Except.ok (E ++ [E.getLastD 0 * last])
  | _ => Except.error ()

/-- Scalar-angle branch of `divergence` (the `isscalar(sample_s)` path):
base slit divergence `degrees(0.5*(s1+s2)/(d1-d2))`, overridden by
`degrees(0.5*(s1+sample_s)/d1)` when the projected sample footprint
`sample_s = sample_width*sin(radians(T))` satisfies `sample_s < s2`,
then `sample_broadening` is added. -/
def divergence_scalar (T s1 s2 d1 d2 sample_width sample_broadening : ℝ) : ℝ :=
  let dT := degrees (0.5 * (s1 + s2) / (d1 - d2))
  let sample_s := sample_width * Real.sin (radians T)
  (if sample_s < s2 then degrees (0.5 * (s1 + sample_s) / d1) else dT) + sample_broadening

/-- Sequence-angle branch of `divergence`: the boolean mask
`idx = sample_s < s2` selects the positions where the broadcast base value is
overwritten by the sample-limited formula, then `sample_broadening` is added
elementwise. -/
def divergence_list (T : List ℝ) (s1 s2 d1 d2 sample_width sample_broadening : ℝ) :
    List ℝ :=
  let dT0 := degrees (0.5 * (s1 + s2) / (d1 - d2))
  let sample_s := T.map (fun t => sample_width * Real.sin (radians t))
  let dTs := List.zipWith
    (fun p d => if p < s2 then degrees (0.5 * (s1 + p) / d1) else d)
    sample_s (sample_s.map (fun _ => dT0))
  dTs.map (fun d => d + sample_broadening)

/-- `slit_widths` for a sequence of angles.  Slit parameters are taken after
the tuple-or-scalar unpacking, so each is an `(s1, s2)` pair; `none` for
`slits_below`/`slits_above` models the Python `None` defaults.  The masked
assignments are applied in source order: fixed `slits_below`, then
`slits_at_Tlo * T/Tlo` where `abs(T) >= Tlo`, then `slits_above` where
`abs(T) > Thi` (the later assignment wins). -/
def slit_widths (T : List ℝ) (slits_at_Tlo : ℝ × ℝ) (Tlo Thi : ℝ)
    (slits_below slits_above : Option (ℝ × ℝ)) : List ℝ × List ℝ :=
  let b := slits_below.getD slits_at_Tlo
  let m := slits_at_Tlo
  let t := slits_above.getD (m.1 * Thi / Tlo, m.2 * Thi / Tlo)
  let pick := fun (bk mk tk : ℝ) (x : ℝ) =>
    if |x| > Thi then tk else if |x| ≥ Tlo then mk * x / Tlo else bk
  (T.map (pick b.1 m.1 t.1), T.map (pick b.2 m.2 t.2))

/-- `slit_widths` called with a scalar angle `T`: the masked assignment
`s1[idx] = m1 * T[idx]/Tlo` evaluates `T[idx]`, subscripting the scalar
angle, so every scalar call raises TypeError before producing any result;
the raise is embedded as `Except.error ()`. -/
def slit_widths_scalarT (T : ℝ) (slits_at_Tlo : ℝ × ℝ) (Tlo Thi : ℝ)
    (slits_below slits_above : Option (ℝ × ℝ)) : Except Unit (ℝ × ℝ) :=
  Except.error ()

/-- Closed form of the k-th bin center produced by `bins`:
the midpoint of the edges `low*(1+dLoL)^k` and `low*(1+dLoL)^(k+1)`. -/
def binc (low dLoL : ℝ) (k : ℕ) : ℝ :=
  (low * (1 + dLoL) ^ k + low * (1 + dLoL) ^ (k + 1)) / 2

/-- Closed form of the k-th bin edge `low*(1+dLoL)^k`. -/
def bine (low dLoL : ℝ) (k : ℕ) : ℝ := low * (1 + dLoL) ^ k

/-! ### Shared helper lemmas -/

theorem tail_map_range (f : ℕ → ℝ) (m : ℕ) :
    ((List.range m).map f).tail = (List.range (m - 1)).map (fun k => f (k + 1)) := by
  cases m with
  | zero => rfl
  | succ m =>
    rw [List.range_succ_eq_map]
    simp [List.map_map, Function.comp]

theorem zipWith_map_range (g : ℝ → ℝ → ℝ) :
    ∀ (m n : ℕ) (f h : ℕ → ℝ),
      List.zipWith g ((List.range m).map f) ((List.range n).map h)
        = (List.range (min m n)).map (fun k => g (f k) (h k)) := by
  intro m
  induction m with
  | zero => intro n f h; simp
  | succ m ih =>
    intro n f h
    cases n with
    | zero => simp
    | succ n =>
      rw [List.range_succ_eq_map, List.range_succ_eq_map (n := n), Nat.succ_min_succ,
          List.range_succ_eq_map]
      simp only [List.map_cons, List.map_map, List.zipWith_cons_cons]
      rw [ih n (f ∘ Nat.succ) (h ∘ Nat.succ)]
      rfl

theorem bins_eq (low high dLoL : ℝ) :
    bins low high dLoL
      = (List.range ((⌈Real.log (high / low) / Real.log (1 + dLoL)⌉ + 1).toNat - 1)).map
          (binc low dLoL) := by
  simp only [bins]
  rw [tail_map_range, zipWith_map_range]
  rw [Nat.min_eq_right (Nat.sub_le _ _)]
  rfl

theorem one_le_ceil_log (low high dLoL : ℝ) (h1 : 0 < low) (h2 : low < high)
    (h3 : 0 < dLoL) :
    1 ≤ ⌈Real.log (high / low) / Real.log (1 + dLoL)⌉ := by
  have hx : 0 < Real.log (high / low) / Real.log (1 + dLoL) :=
    div_pos (Real.log_pos ((one_lt_div h1).mpr h2)) (Real.log_pos (by linarith))
  have := Int.ceil_pos.mpr hx
  omega

theorem bins_closed (low high dLoL : ℝ) (h1 : 0 < low) (h2 : low < high)
    (h3 : 0 < dLoL) :
    bins low high dLoL
      = (List.range (⌈Real.log (high / low) / Real.log (1 + dLoL)⌉.toNat)).map
          (binc low dLoL) := by
  rw [bins_eq]
  have := one_le_ceil_log low high dLoL h1 h2 h3
  have harg : (⌈Real.log (high / low) / Real.log (1 + dLoL)⌉ + 1).toNat - 1
      = ⌈Real.log (high / low) / Real.log (1 + dLoL)⌉.toNat := by omega
  rw [harg]

theorem le_pow_ceil (low high dLoL : ℝ) (h1 : 0 < low) (h2 : low < high)
    (h3 : 0 < dLoL) :
    high ≤ low * (1 + dLoL) ^ ⌈Real.log (high / low) / Real.log (1 + dLoL)⌉.toNat := by
  have hs1 : (1:ℝ) < 1 + dLoL := by linarith
  have hls : 0 < Real.log (1 + dLoL) := Real.log_pos hs1
  have hr1 : (1:ℝ) < high / low := (one_lt_div h1).mpr h2
  have hx : 0 < Real.log (high / low) / Real.log (1 + dLoL) :=
    div_pos (Real.log_pos hr1) hls
  have hn0 : 0 ≤ ⌈Real.log (high / low) / Real.log (1 + dLoL)⌉ := Int.ceil_nonneg hx.le
  have hcast : ((⌈Real.log (high / low) / Real.log (1 + dLoL)⌉.toNat : ℕ) : ℝ)
      = ((⌈Real.log (high / low) / Real.log (1 + dLoL)⌉ : ℤ) : ℝ) := by
    exact_mod_cast Int.toNat_of_nonneg hn0
  have hle : Real.log (high / low)
      ≤ (⌈Real.log (high / low) / Real.log (1 + dLoL)⌉.toNat : ℝ) * Real.log (1 + dLoL) := by
    rw [hcast]
    exact (div_le_iff₀ hls).mp (Int.le_ceil _)
  have hlog : Real.log (high / low)
      ≤ Real.log ((1 + dLoL) ^ ⌈Real.log (high / low) / Real.log (1 + dLoL)⌉.toNat) := by
    rw [Real.log_pow]
    exact hle
  have hpow : (0:ℝ) < (1 + dLoL) ^ ⌈Real.log (high / low) / Real.log (1 + dLoL)⌉.toNat :=
    pow_pos (by linarith) _
  have hdiv : high / low ≤ (1 + dLoL) ^ ⌈Real.log (high / low) / Real.log (1 + dLoL)⌉.toNat :=
    (Real.log_le_log_iff (by positivity) hpow).mp hlog
  calc high = low * (high / low) := by field_simp
    _ ≤ low * (1 + dLoL) ^ ⌈Real.log (high / low) / Real.log (1 + dLoL)⌉.toNat :=
        mul_le_mul_of_nonneg_left hdiv h1.le

theorem binc_pos (low dLoL : ℝ) (h1 : 0 < low) (h3 : 0 < dLoL) (k : ℕ) :
    0 < binc low dLoL k := by
  unfold binc
  have hs : (0:ℝ) < 1 + dLoL := by linarith
  have hpk := pow_pos hs k
  have hpk1 := pow_pos hs (k + 1)
  nlinarith

theorem binc_succ (low dLoL : ℝ) (k : ℕ) :
    binc low dLoL (k + 1) = (1 + dLoL) * binc low dLoL k := by
  unfold binc
  ring

theorem binc_lt (low dLoL : ℝ) (h1 : 0 < low) (h3 : 0 < dLoL) (k : ℕ) :
    binc low dLoL k < binc low dLoL (k + 1) := by
  have hpos := binc_pos low dLoL h1 h3 k
  rw [binc_succ]
  nlinarith

theorem binc_ratio (low dLoL : ℝ) (h1 : 0 < low) (h3 : 0 < dLoL) :
    binc low dLoL 1 / binc low dLoL 0 - 1 = dLoL := by
  have hpos := binc_pos low dLoL h1 h3 0
  rw [show binc low dLoL 1 = (1 + dLoL) * binc low dLoL 0 from binc_succ low dLoL 0]
  rw [mul_div_assoc, div_self hpos.ne', mul_one]
  ring

theorem binc_to_edge (low dLoL : ℝ) (hd : (2:ℝ) + dLoL ≠ 0) (k : ℕ) :
    binc low dLoL k * 2 / (2 + dLoL) = bine low dLoL k := by
  unfold binc bine
  field_simp
  ring

theorem binc_to_width (low dLoL : ℝ) (hd : (2:ℝ) + dLoL ≠ 0) (k : ℕ) :
    2 * dLoL / (2 + dLoL) * binc low dLoL k
      = bine low dLoL (k + 1) - bine low dLoL k := by
  unfold binc bine
  field_simp
  ring

theorem FWHM_scale_pos : 0 < FWHM_scale :=
  Real.sqrt_pos.mpr (Real.log_pos (by norm_num))

theorem divergence_list_cons (t : ℝ) (ts : List ℝ) (s1 s2 d1 d2 w sb : ℝ) :
    divergence_list (t :: ts) s1 s2 d1 d2 w sb
      = divergence_scalar t s1 s2 d1 d2 w sb :: divergence_list ts s1 s2 d1 d2 w sb := by
  simp [divergence_list, divergence_scalar]

theorem divergence_list_nil (s1 s2 d1 d2 w sb : ℝ) :
    divergence_list [] s1 s2 d1 d2 w sb = [] := by
  simp [divergence_list]

/-! ### C4: out-of-domain inputs give NaN, not an exception -/

/-- Claim C4: every formula with a restricted domain returns NaN (embedded as
`none`) at the affected positions: `QL2T` when `|Q|*L/(4π) > 1`, `dQdT2dLoL`
when `(sigma2FWHM(dQ)/Q)² < (radians(dT)/tan(radians(T)))²`, and the `dT`
component of `dQdL2dT` when `(sigma2FWHM(dQ)/Q)² < (dL/L)²`.  All three
embedded functions are total, so nothing is raised. -/
theorem restricted_domain_nan :
    (∀ Q L : ℝ, 1 < |Q| * L / (4 * π) → QL2T Q L = none)
    ∧ (∀ Q dQ T dT : ℝ,
        (sigma2FWHM dQ / Q) ^ 2 < (radians dT / Real.tan (radians T)) ^ 2 →
        dQdT2dLoL Q dQ T dT = none)
    ∧ (∀ Q dQ L dL : ℝ,
        (sigma2FWHM dQ / Q) ^ 2 < (dL / L) ^ 2 →
        (dQdL2dT Q dQ L dL).2 = none) := by
  refine ⟨?_, ?_, ?_⟩
  · intro Q L h
    simp only [QL2T]
    rw [if_pos (Or.inl h)]
  · intro Q dQ T dT h
    simp only [dQdT2dLoL]
    rw [if_pos (by linarith)]
  · intro Q dQ L dL h
    rcases hq : QL2T Q L with _ | t
    · simp [dQdL2dT, hq]
    · simp only [dQdL2dT, hq]
      rw [if_pos (by linarith)]

/-- Witness for C4 at concrete inputs. -/
theorem restricted_domain_nan_witness :
    QL2T 100 1 = none
    ∧ dQdT2dLoL 1 0 45 90 = none
    ∧ (dQdL2dT 1 0 1 1).2 = none := by
  refine ⟨?_, ?_, ?_⟩
  · apply restricted_domain_nan.1
    rw [abs_of_pos (by norm_num)]
    rw [lt_div_iff₀ (by positivity)]
    nlinarith [Real.pi_lt_d2]
  · apply restricted_domain_nan.2.1
    have h45 : radians 45 = π / 4 := by unfold radians; ring
    have h90 : radians 90 = π / 2 := by unfold radians; ring
    have hs : sigma2FWHM 0 = 0 := by simp [sigma2FWHM]
    calc (sigma2FWHM 0 / 1) ^ 2 = 0 := by rw [hs]; norm_num
    _ < (radians 90 / Real.tan (radians 45)) ^ 2 := by
        rw [h45, h90, Real.tan_pi_div_four]
        positivity
  · apply restricted_domain_nan.2.2
    have : sigma2FWHM 0 = 0 := by simp [sigma2FWHM]
    rw [this]
    norm_num

/-! ### C9: scalar branch agrees with the length-1 sequence branch -/

/-- Claim C9: for every slit pair, distance pair, sample width and sample
broadening, `divergence` on a scalar angle equals the single element of
`divergence` on the length-1 sequence of the same angle. -/
theorem divergence_scalar_list_agree (T s1 s2 d1 d2 w sb : ℝ) :
    divergence_list [T] s1 s2 d1 d2 w sb = [divergence_scalar T s1 s2 d1 d2 w sb] := by
  rw [divergence_list_cons, divergence_list_nil]

/-! ### C3: shape consistency -/

/-- Claim C3 (amended): sequence inputs of length n yield outputs of length n
for both `divergence` and `slit_widths`, and the scalar branch of
`divergence` is a total scalar-valued function; but `slit_widths` applied to
a scalar angle raises TypeError (`T[idx]` subscripts the scalar), so the
original claim's scalar clause for `slit_widths` fails. -/
theorem shape_consistency :
    (∀ (T : List ℝ) (s1 s2 d1 d2 w sb : ℝ),
        (divergence_list T s1 s2 d1 d2 w sb).length = T.length)
    ∧ (∀ (T : List ℝ) (p : ℝ × ℝ) (Tlo Thi : ℝ) (sb sa : Option (ℝ × ℝ)),
        (slit_widths T p Tlo Thi sb sa).1.length = T.length
        ∧ (slit_widths T p Tlo Thi sb sa).2.length = T.length)
    ∧ (∀ (T : ℝ) (p : ℝ × ℝ) (Tlo Thi : ℝ) (sb sa : Option (ℝ × ℝ)),
        slit_widths_scalarT T p Tlo Thi sb sa = Except.error ()) := by
  refine ⟨?_, ?_, ?_⟩
  · intro T s1 s2 d1 d2 w sb
    simp [divergence_list]
  · intro T p Tlo Thi sb sa
    constructor <;> simp [slit_widths]
  · intro T p Tlo Thi sb sa
    rfl

/-- Counterexample for C3 as stated: `slit_widths` on the scalar angle `T = 2`
raises TypeError instead of returning a scalar pair. -/
theorem slit_widths_scalar_raises :
    slit_widths_scalarT 2 (1, 1) 90 90 none none = Except.error () := rfl

/-! ### C2: slit_widths uses the signed angle in the opening region -/

/-- Claim C2 (code bug): `slit_widths` is not symmetric about zero angle.
Region membership is decided by `abs(T)`, but the opening-region widths are
scaled by the signed `T` (`s1[idx] = m1 * T[idx]/Tlo`), so the angle `-1`
with `Tlo = 1/2` yields the negative widths `(-2, -2)` while `+1` yields
`(2, 2)`. -/
theorem slit_widths_sign_asymmetry :
    slit_widths [-1] (1, 1) (1 / 2) 90 none none = ([-2], [-2])
    ∧ slit_widths [1] (1, 1) (1 / 2) 90 none none = ([2], [2]) := by
  constructor <;>
  · simp only [slit_widths, Option.getD]
    norm_num

/-! ### C7: angle/Q round trip -/

theorem QL2T_TL2Q_aux (T L : ℝ) (h0 : 0 ≤ T) (h90 : T ≤ 90) (hL : 0 < L) :
    QL2T (TL2Q T L) L = some T := by
  have hπ := Real.pi_pos
  have hθ0 : 0 ≤ radians T := by unfold radians; positivity
  have hθhalf : radians T ≤ π / 2 := by unfold radians; nlinarith
  have hsin0 : 0 ≤ Real.sin (radians T) :=
    Real.sin_nonneg_of_nonneg_of_le_pi hθ0 (by linarith)
  have hQ0 : 0 ≤ TL2Q T L := by
    unfold TL2Q
    exact div_nonneg (mul_nonneg (by positivity) hsin0) hL.le
  have harg : |TL2Q T L| * L / (4 * π) = Real.sin (radians T) := by
    rw [abs_of_nonneg hQ0]
    unfold TL2Q
    field_simp
  unfold QL2T
  rw [harg]
  rw [if_neg (by push_neg; exact ⟨Real.sin_le_one _, by linarith⟩)]
  rw [Real.arcsin_sin (by linarith) hθhalf]
  unfold degrees radians
  field_simp

/-- Claim C7: for every angle `T ∈ [0, 90]` degrees and wavelength `L > 0`,
`QL2T(TL2Q(T, L), L) = T` (the NaN case does not arise, so the result is
`some T`). -/
theorem QL2T_TL2Q_roundtrip (T L : ℝ) (h0 : 0 ≤ T) (h90 : T ≤ 90) (hL : 0 < L) :
    QL2T (TL2Q T L) L = some T :=
  QL2T_TL2Q_aux T L h0 h90 hL

/-- Witness for C7 at `T = 45`, `L = 5`. -/
theorem QL2T_TL2Q_roundtrip_witness :
    (0:ℝ) ≤ 45 ∧ (45:ℝ) ≤ 90 ∧ (0:ℝ) < 5 ∧ QL2T (TL2Q 45 5) 5 = some 45 :=
  ⟨by norm_num, by norm_num, by norm_num,
   QL2T_TL2Q_roundtrip 45 5 (by norm_num) (by norm_num) (by norm_num)⟩

/-! ### C8: divergence propagation round trip -/

/-- Claim C8: for `0 < T < 90` and positive `dT`, `L`, `dL`, the inverse
propagation `dQdL2dT` applied to `TL2Q(T, L)` and `dTdL2dQ(T, dT, L, dL)`
recovers the pair `(T, dT)` exactly. -/
theorem dQ_roundtrip (T dT L dL : ℝ) (hT0 : 0 < T) (hT90 : T < 90)
    (hdT : 0 < dT) (hL : 0 < L) (hdL : 0 < dL) :
    dQdL2dT (TL2Q T L) (dTdL2dQ T dT L dL) L dL = (some T, some dT) := by
  have hπ := Real.pi_pos
  have hθ0 : 0 < radians T := by unfold radians; positivity
  have hθhalf : radians T < π / 2 := by unfold radians; nlinarith
  have hsin : 0 < Real.sin (radians T) :=
    Real.sin_pos_of_pos_of_lt_pi hθ0 (by linarith)
  have hcos : 0 < Real.cos (radians T) :=
    Real.cos_pos_of_mem_Ioo ⟨by linarith, hθhalf⟩
  have hdTr : 0 < radians dT := by unfold radians; positivity
  have hsin' : Real.sin (radians T) ≠ 0 := ne_of_gt hsin
  have hcos' : Real.cos (radians T) ≠ 0 := ne_of_gt hcos
  have hL' : L ≠ 0 := ne_of_gt hL
  have hπ' : π ≠ 0 := Real.pi_ne_zero
  have hQfst : QL2T (TL2Q T L) L = some T := QL2T_TL2Q_aux T L hT0.le hT90.le hL
  have hABpos : (0:ℝ) ≤ (Real.sin (radians T) * dL / L) ^ 2 +
      (Real.cos (radians T) * radians dT) ^ 2 := by positivity
  have hs2 := Real.sq_sqrt hABpos
  have hr : (sigma2FWHM (dTdL2dQ T dT L dL) / TL2Q T L) ^ 2 - (dL / L) ^ 2
      = (Real.cos (radians T) * radians dT / Real.sin (radians T)) ^ 2 := by
    unfold dTdL2dQ sigma2FWHM FWHM2sigma TL2Q
    rw [div_mul_cancel₀ _ (ne_of_gt FWHM_scale_pos)]
    rw [div_pow, mul_pow, hs2]
    field_simp
    ring
  have hrpos : 0 ≤ Real.cos (radians T) * radians dT / Real.sin (radians T) :=
    le_of_lt (div_pos (mul_pos hcos hdTr) hsin)
  simp only [dQdL2dT, hQfst]
  rw [hr, if_neg (not_lt.mpr (sq_nonneg _))]
  rw [Real.sqrt_sq hrpos, Real.tan_eq_sin_div_cos]
  have hcancel : Real.cos (radians T) * radians dT / Real.sin (radians T) *
      (Real.sin (radians T) / Real.cos (radians T)) = radians dT := by
    field_simp
  rw [hcancel]
  unfold degrees radians
  rw [show dT * (π / 180) * (180 / π) = dT from by field_simp]

/-- Witness for C8 at `T = 45`, `dT = 1`, `L = 5`, `dL = 1`. -/
theorem dQ_roundtrip_witness :
    (0:ℝ) < 45 ∧ (45:ℝ) < 90 ∧ (0:ℝ) < 1 ∧ (0:ℝ) < 5 ∧
    dQdL2dT (TL2Q 45 5) (dTdL2dQ 45 1 5 1) 5 1 = (some 45, some 1) :=
  ⟨by norm_num, by norm_num, by norm_num, by norm_num,
   dQ_roundtrip 45 1 5 1 (by norm_num) (by norm_num) (by norm_num) (by norm_num)
     (by norm_num)⟩

/-! ### C5: geometric bin construction -/

/-- Claim C5: for `0 < low < high` and `dLoL > 0`, `bins` returns the
`n = ceil(log(high/low)/log(1+dLoL))` midpoints of the consecutive geometric
edges `low*(1+dLoL)^k`, `k = 0..n`; the last edge reaches at least `high`;
and the centers are ascending with constant ratio `1+dLoL`. -/
theorem bins_spec (low high dLoL : ℝ) (h1 : 0 < low) (h2 : low < high)
    (h3 : 0 < dLoL) :
    (bins low high dLoL).length
        = ⌈Real.log (high / low) / Real.log (1 + dLoL)⌉.toNat
    ∧ (∀ k, k < (bins low high dLoL).length →
        (bins low high dLoL)[k]? =
          some ((low * (1 + dLoL) ^ k + low * (1 + dLoL) ^ (k + 1)) / 2))
    ∧ high ≤ low * (1 + dLoL) ^ ⌈Real.log (high / low) / Real.log (1 + dLoL)⌉.toNat
    ∧ (∀ k, k + 1 < (bins low high dLoL).length →
        ∃ a b, (bins low high dLoL)[k]? = some a
          ∧ (bins low high dLoL)[k + 1]? = some b
          ∧ b = (1 + dLoL) * a ∧ a < b) := by
  have hB := bins_closed low high dLoL h1 h2 h3
  refine ⟨?_, ?_, le_pow_ceil low high dLoL h1 h2 h3, ?_⟩
  · rw [hB]
    simp
  · intro k hk
    rw [hB] at hk ⊢
    simp only [List.length_map, List.length_range] at hk
    simp [List.getElem?_map, List.getElem?_range hk, binc]
  · intro k hk
    rw [hB] at hk ⊢
    simp only [List.length_map, List.length_range] at hk
    refine ⟨binc low dLoL k, binc low dLoL (k + 1), ?_, ?_, ?_, ?_⟩
    · simp [List.getElem?_map, List.getElem?_range
        (show k < ⌈Real.log (high / low) / Real.log (1 + dLoL)⌉.toNat by omega)]
    · simp [List.getElem?_map, List.getElem?_range hk]
    · exact binc_succ low dLoL k
    · exact binc_lt low dLoL h1 h3 k

theorem ceil_log_four_two : ⌈Real.log ((4:ℝ) / 1) / Real.log (1 + 1)⌉ = 2 := by
  have h4 : ((4:ℝ) / 1) = 2 ^ 2 := by norm_num
  have h2 : (1:ℝ) + 1 = 2 := by norm_num
  rw [h4, h2, Real.log_pow]
  have hl2 : Real.log 2 ≠ 0 := ne_of_gt (Real.log_pos one_lt_two)
  rw [show ((2:ℕ):ℝ) * Real.log 2 / Real.log 2 = 2 from by field_simp]
  rw [show (2:ℝ) = ((2:ℤ):ℝ) from by norm_num]
  exact Int.ceil_intCast 2

/-- Witness for C5 at `low = 1`, `high = 4`, `dLoL = 1`, where the center list
is `[3/2, 3]`. -/
theorem bins_spec_witness :
    (0:ℝ) < 1 ∧ (1:ℝ) < 4 ∧
    (bins 1 4 1).length = 2 ∧ (bins 1 4 1)[0]? = some (3 / 2) ∧
    (bins 1 4 1)[1]? = some 3 ∧ (4:ℝ) ≤ 1 * (1 + 1) ^ 2 := by
  obtain ⟨hlen, hmid, hlast, _⟩ := bins_spec 1 4 1 (by norm_num) (by norm_num) (by norm_num)
  rw [ceil_log_four_two] at hlen hlast
  have hlen2 : (bins 1 4 1).length = 2 := by simpa using hlen
  refine ⟨by norm_num, by norm_num, hlen2, ?_, ?_, ?_⟩
  · have h := hmid 0 (by rw [hlen2]; norm_num)
    norm_num at h
    exact h
  · have h := hmid 1 (by rw [hlen2]; norm_num)
    norm_num at h
    exact h
  · simpa using hlast

/-! ### C6: bin widths and edges consistency -/

theorem binwidths_cons (L0 L1 : ℝ) (rest : List ℝ) (h : L0 < L1) :
    binwidths (L0 :: L1 :: rest)
      = Except.ok ((L0 :: L1 :: rest).map
          (fun x => 2 * (L1 / L0 - 1) / (2 + (L1 / L0 - 1)) * x)) := by
  simp only [binwidths, if_pos h]

theorem binedges_cons (L0 L1 : ℝ) (rest : List ℝ) (h : L0 < L1) :
    binedges (L0 :: L1 :: rest)
      = Except.ok (((L0 :: L1 :: rest).map (fun x => x * 2 / (2 + (L1 / L0 - 1))))
          ++ [((L0 :: L1 :: rest).map (fun x => x * 2 / (2 + (L1 / L0 - 1)))).getLastD 0
              * (1 + (L1 / L0 - 1))]) := by
  simp only [binedges, if_pos h]

theorem ceil_log_two_two : ⌈Real.log ((2:ℝ) / 1) / Real.log (1 + 1)⌉ = 1 := by
  have h2 : ((2:ℝ) / 1) = 2 := by norm_num
  have h1 : (1:ℝ) + 1 = 2 := by norm_num
  rw [h2, h1]
  have hl2 : Real.log 2 ≠ 0 := ne_of_gt (Real.log_pos one_lt_two)
  rw [div_self hl2]
  exact Int.ceil_one

theorem bins_one_two_one : bins 1 2 1 = [3 / 2] := by
  rw [bins_closed 1 2 1 (by norm_num) (by norm_num) (by norm_num), ceil_log_two_two]
  simp [List.range_succ, binc]
  norm_num

/-- Counterexample for C6 as stated: `bins 1 2 1` is the single-center
sequence `[3/2]` (with `0 < 1 < 2` and `dLoL = 1 > 0`), and `binwidths` on it
raises IndexError (when reading `L[1]`) instead of returning the differences
of `binedges`. -/
theorem binwidths_single_center_raises :
    binwidths (bins 1 2 1) = Except.error () := by
  rw [bins_one_two_one]
  rfl

/-- Claim C6 (amended): for center sequences produced by `bins` that have at
least two entries, `binwidths` equals the elementwise differences of
consecutive `binedges` entries, `binedges` has length `len(centers)+1`, its
first edge equals `low` and its last edge is at least `high`.  (Single-center
outputs of `bins` make `binwidths`/`binedges` raise IndexError.) -/
theorem binedges_binwidths_consistency (low high dLoL : ℝ)
    (h1 : 0 < low) (h2 : low < high) (h3 : 0 < dLoL)
    (hn : 2 ≤ (bins low high dLoL).length) :
    ∃ E W, binedges (bins low high dLoL) = Except.ok E
      ∧ binwidths (bins low high dLoL) = Except.ok W
      ∧ E.length = (bins low high dLoL).length + 1
      ∧ E[0]? = some low
      ∧ high ≤ E.getLastD 0
      ∧ W = List.zipWith (fun a b => a - b) E.tail E := by
  have hB := bins_closed low high dLoL h1 h2 h3
  have hd2 : (2:ℝ) + dLoL ≠ 0 := by linarith
  have hlen0 : (bins low high dLoL).length
      = ⌈Real.log (high / low) / Real.log (1 + dLoL)⌉.toNat := by
    rw [hB]; simp
  obtain ⟨m, hm⟩ : ∃ m, ⌈Real.log (high / low) / Real.log (1 + dLoL)⌉.toNat = m + 2 :=
    ⟨⌈Real.log (high / low) / Real.log (1 + dLoL)⌉.toNat - 2, by omega⟩
  have hB2 : bins low high dLoL = (List.range (m + 2)).map (binc low dLoL) := by
    rw [hB, hm]
  have hsplit : (List.range (m + 2)).map (binc low dLoL)
      = binc low dLoL 0 :: binc low dLoL 1
        :: (List.range m).map (fun k => binc low dLoL (k + 2)) := by
    rw [List.range_succ_eq_map, List.range_succ_eq_map]
    simp only [List.map_cons, List.map_map]
    rfl
  have hc01 : binc low dLoL 0 < binc low dLoL 1 := binc_lt low dLoL h1 h3 0
  have hratio := binc_ratio low dLoL h1 h3
  have hmapE : ((List.range (m + 2)).map (binc low dLoL)).map
        (fun x => x * 2 / (2 + dLoL)) = (List.range (m + 2)).map (bine low dLoL) := by
    rw [List.map_map]
    congr 1
    funext k
    exact binc_to_edge low dLoL hd2 k
  have hlastpref : ((List.range (m + 2)).map (bine low dLoL)).getLastD 0
      = bine low dLoL (m + 1) := by
    rw [List.range_succ, List.map_append]
    simp [List.getLastD_concat]
  have hlastmul : bine low dLoL (m + 1) * (1 + dLoL) = bine low dLoL (m + 2) := by
    unfold bine
    ring
  have hEfullrev : (List.range (m + 3)).map (bine low dLoL)
      = (List.range (m + 2)).map (bine low dLoL) ++ [bine low dLoL (m + 2)] := by
    rw [List.range_succ, List.map_append]
    rfl
  have hEtail : ((List.range (m + 3)).map (bine low dLoL)).tail
      = (List.range (m + 2)).map (fun k => bine low dLoL (k + 1)) := by
    rw [tail_map_range]
    norm_num
  have hzip : List.zipWith (fun a b => a - b)
        ((List.range (m + 2)).map (fun k => bine low dLoL (k + 1)))
        ((List.range (m + 3)).map (bine low dLoL))
      = (List.range (m + 2)).map (fun k => bine low dLoL (k + 1) - bine low dLoL k) := by
    rw [zipWith_map_range, Nat.min_eq_left (by omega)]
  refine ⟨(List.range (m + 3)).map (bine low dLoL),
          (List.range (m + 2)).map (fun k => bine low dLoL (k + 1) - bine low dLoL k),
          ?_, ?_, ?_, ?_, ?_, ?_⟩
  · rw [hB2, hsplit, binedges_cons _ _ _ hc01, hratio, ← hsplit, hmapE,
        hlastpref, hlastmul, hEfullrev]
  · rw [hB2, hsplit, binwidths_cons _ _ _ hc01, hratio, ← hsplit]
    rw [List.map_map]
    congr 1
    congr 1
    funext k
    exact binc_to_width low dLoL hd2 k
  · rw [hlen0, hm]
    simp
  · simp only [List.getElem?_map, List.getElem?_range (show 0 < m + 3 by omega)]
    simp [bine]
  · have h := le_pow_ceil low high dLoL h1 h2 h3
    rw [hm] at h
    rw [hEfullrev, List.getLastD_concat]
    exact h
  · rw [hEtail, hzip]

theorem bins_one_four_one : bins 1 4 1 = [3 / 2, 3] := by
  rw [bins_closed 1 4 1 (by norm_num) (by norm_num) (by norm_num), ceil_log_four_two]
  simp [List.range_succ, binc]
  norm_num

/-- Witness for C6 at `low = 1`, `high = 4`, `dLoL = 1`: centers `[3/2, 3]`,
edges `[1, 2, 4]`, widths `[1, 2]`. -/
theorem binedges_binwidths_consistency_witness :
    binedges (bins 1 4 1) = Except.ok [1, 2, 4]
    ∧ binwidths (bins 1 4 1) = Except.ok [1, 2] := by
  obtain ⟨E, W, hE, hW, _, _, _, hzipEW⟩ :=
    binedges_binwidths_consistency 1 4 1 (by norm_num) (by norm_num) (by norm_num)
      (by rw [bins_one_four_one]; norm_num)
  have hEval : binedges (bins 1 4 1) = Except.ok [1, 2, 4] := by
    rw [bins_one_four_one]
    rw [binedges_cons (3 / 2) 3 [] (by norm_num)]
    norm_num
  have hEeq : E = [1, 2, 4] := Except.ok.inj (hE.symm.trans hEval)
  have hWeq : W = [1, 2] := by
    rw [hzipEW, hEeq]
    norm_num [List.zipWith]
  exact ⟨hEval, hWeq ▸ hW⟩

/-! ### C1: divergence with an effectively infinite sample -/

/-- Counterexample for C1 as stated: with the "effectively infinite" default
sample width `10^10` and the negative angle `T = -90`, the projected
footprint `10^10 * sin(radians(-90)) = -10^10` is below `s2 = 1`, so the
sample-truncation override fires and the result differs from the slit-pair
formula.  (With IEEE infinity the same happens: `inf * sin` is `-inf` at
negative angles.) -/
theorem divergence_truncates_at_negative_angle :
    divergence_scalar (-90) 1 1 2 1 (10 ^ 10) 0
      ≠ degrees (0.5 * (1 + 1) / (2 - 1)) + 0 := by
  have hsin : Real.sin (radians (-90)) = -1 := by
    unfold radians
    rw [show (-90:ℝ) * (π / 180) = -(π / 2) by ring, Real.sin_neg, Real.sin_pi_div_two]
  simp only [divergence_scalar, hsin]
  rw [if_pos (by norm_num)]
  simp only [add_zero]
  unfold degrees
  intro h
  have hc : (180:ℝ) / π ≠ 0 := div_ne_zero (by norm_num) Real.pi_ne_zero
  have h2 := mul_right_cancel₀ hc h
  norm_num at h2

/-- Claim C1 (amended): the sample-truncation override never fires — and
`divergence` equals the pure slit-pair formula
`degrees(0.5*(s1+s2)/(d1-d2)) + sample_broadening` — exactly at those angles
whose projected footprint covers the second slit, `s2 ≤ w*sin(radians(T))`;
for positive angles this holds for all sufficiently large sample widths,
but at `T ≤ 0` (footprint ≤ 0) no finite or infinite width avoids the
override. -/
theorem divergence_slit_formula_of_footprint (s1 s2 d1 d2 w sb : ℝ) (hd : d2 < d1) :
    (∀ T : ℝ, s2 ≤ w * Real.sin (radians T) →
        divergence_scalar T s1 s2 d1 d2 w sb
          = degrees (0.5 * (s1 + s2) / (d1 - d2)) + sb)
    ∧ (∀ Ts : List ℝ, (∀ t ∈ Ts, s2 ≤ w * Real.sin (radians t)) →
        divergence_list Ts s1 s2 d1 d2 w sb
          = Ts.map (fun x => degrees (0.5 * (s1 + s2) / (d1 - d2)) + sb)) := by
  have hscalar : ∀ T : ℝ, s2 ≤ w * Real.sin (radians T) →
      divergence_scalar T s1 s2 d1 d2 w sb
        = degrees (0.5 * (s1 + s2) / (d1 - d2)) + sb := by
    intro T h
    simp only [divergence_scalar]
    rw [if_neg (not_lt.mpr h)]
  refine ⟨hscalar, ?_⟩
  intro Ts
  induction Ts with
  | nil => intro _; simp [divergence_list_nil]
  | cons t ts ih =>
    intro hTs
    rw [divergence_list_cons, hscalar t (hTs t (List.mem_cons_self t ts)),
        List.map_cons, ih (fun x hx => hTs x (List.mem_cons_of_mem t hx))]

/-- Witness for C1 (amended) at `T = 90`, `w = 2`, `s2 = 1`. -/
theorem divergence_slit_formula_witness :
    (1:ℝ) < 2 ∧ (1:ℝ) ≤ 2 * Real.sin (radians 90) ∧
    divergence_scalar 90 1 1 2 1 2 0 = degrees (0.5 * (1 + 1) / (2 - 1)) + 0 ∧
    divergence_list [90] 1 1 2 1 2 0 = [degrees (0.5 * (1 + 1) / (2 - 1)) + 0] := by
  have hsin : Real.sin (radians 90) = 1 := by
    unfold radians
    rw [show (90:ℝ) * (π / 180) = π / 2 by ring, Real.sin_pi_div_two]
  have hfoot : (1:ℝ) ≤ 2 * Real.sin (radians 90) := by
    rw [hsin]; norm_num
  obtain ⟨hs, hl⟩ := divergence_slit_formula_of_footprint 1 1 2 1 2 0 (by norm_num)
  refine ⟨by norm_num, hfoot, hs 90 hfoot, ?_⟩
  have h := hl [90] (by
    intro t ht
    simp only [List.mem_singleton] at ht
    subst ht
    exact hfoot)
  simpa using h

/-! ### C10: nonpositive angles always take the sample-limited branch -/

/-- Claim C10: if `s2 > 0` and the sample width is nonnegative, then at every
angle with `sin(radians(T)) ≤ 0` (i.e. `T = 0` or negative incidence), the
projected footprint is `≤ 0 < s2`, so `divergence` takes the sample-limited
branch regardless of how large the sample width is, returning
`degrees(0.5*(s1 + w*sin(radians(T)))/d1) + sample_broadening` — elementwise
for sequences. -/
theorem divergence_sample_limited_nonpos (s1 s2 d1 d2 w sb : ℝ)
    (hs2 : 0 < s2) (hw : 0 ≤ w) :
    (∀ T : ℝ, Real.sin (radians T) ≤ 0 →
        divergence_scalar T s1 s2 d1 d2 w sb
          = degrees (0.5 * (s1 + w * Real.sin (radians T)) / d1) + sb)
    ∧ (∀ Ts : List ℝ, (∀ t ∈ Ts, Real.sin (radians t) ≤ 0) →
        divergence_list Ts s1 s2 d1 d2 w sb
          = Ts.map (fun t => degrees (0.5 * (s1 + w * Real.sin (radians t)) / d1) + sb)) := by
  have hscalar : ∀ T : ℝ, Real.sin (radians T) ≤ 0 →
      divergence_scalar T s1 s2 d1 d2 w sb
        = degrees (0.5 * (s1 + w * Real.sin (radians T)) / d1) + sb := by
    intro T h
    have hfoot : w * Real.sin (radians T) ≤ 0 := by nlinarith
    simp only [divergence_scalar]
    rw [if_pos (lt_of_le_of_lt hfoot hs2)]
  refine ⟨hscalar, ?_⟩
  intro Ts
  induction Ts with
  | nil => intro _; simp [divergence_list_nil]
  | cons t ts ih =>
    intro hTs
    rw [divergence_list_cons, hscalar t (hTs t (List.mem_cons_self t ts)),
        List.map_cons, ih (fun x hx => hTs x (List.mem_cons_of_mem t hx))]

/-- Witness for C10 at `T = 0`, `s2 = 1`, `w = 5`. -/
theorem divergence_sample_limited_nonpos_witness :
    (0:ℝ) < 1 ∧ (0:ℝ) ≤ 5 ∧ Real.sin (radians 0) ≤ 0 ∧
    divergence_scalar 0 2 1 3 1 5 0
      = degrees (0.5 * (2 + 5 * Real.sin (radians 0)) / 3) + 0 := by
  have hsin : Real.sin (radians 0) = 0 := by
    simp [radians]
  obtain ⟨hs, _⟩ := divergence_sample_limited_nonpos 2 1 3 1 5 0 (by norm_num) (by norm_num)
  exact ⟨by norm_num, by norm_num, by simp [hsin], hs 0 (by simp [hsin])⟩

end

end Refl1d
